import Mathlib

/-!
# Analytics layer of the hedging dashboard (`src/script.js`)

A shallow embedding of the derivation functions of `script.js` and proofs about them.

Modelling conventions.

* JavaScript numbers are modelled by exact rationals (`ℚ`): every finite double is a rational,
  and `+`, `-`, `*`, `/` are taken without IEEE rounding.  `NaN` is not modelled; `Infinity`
  appears only as the value of `Math.min()` with no arguments.
* A numeric record field is `Option ℚ`: `none` is an absent (`undefined`) field.
* `new Date(s)` is a host function.  The functions that sort by date take `dateMs`, the time
  value of `new Date(s)`, as a parameter; it is total, i.e. the dates are taken to parse.
  `calcMonthlyGrid` takes `getMonth`, the value of `new Date(s).getMonth()`.
* `Array.prototype.sort` is stable; with the comparator `new Date(a.Date) - new Date(b.Date)`
  on parseable dates it is the stable ascending sort by `dateMs`, modelled by insertion sort.
* An object `{}` used as a dictionary is an association list of its own properties in creation
  order; reading a key that is not an own property falls through to `Object.prototype`.
-/

namespace Portfolio

/-! ## Records and number coercions -/

/-- One row of input: `{ Date, Hedge, Return, Beta, Correlation, Equity }`. -/
structure Record where
  Date : String
  Hedge : String
  Return : Option ℚ
  Beta : Option ℚ
  Correlation : Option ℚ
  Equity : Option ℚ
deriving DecidableEq

/-- The expression `Number(v || d)` for a field `v` that is absent or numeric:
`undefined` and `0` are falsy, so both give `d`. -/
def numOr (v : Option ℚ) (d : ℚ) : ℚ :=
  match v with
  | none => d
  | some q => if q = 0 then d else q

/-- The function `Math.floor`. -/
def mathFloor (x : ℚ) : ℤ := ⌊x⌋

/-- The function `Math.round`: the nearest integer, ties towards `+∞`. -/
def mathRound (x : ℚ) : ℤ := ⌊x + 1 / 2⌋

/-- The expression `Math.round(v * 100) / 100`: `v` rounded to 2 decimals. -/
def round2 (v : ℚ) : ℚ := (mathRound (v * 100) : ℚ) / 100

/-- The constant `colorPalette`. -/
def colorPalette : List String :=
  ["#1e88e5", "#f27f3d", "#43a047", "#8e24aa", "#3949ab", "#00897b"]

/-- The expression `colorPalette[index % colorPalette.length]`. -/
def paletteAt (index : Nat) : String :=
  colorPalette.getD (index % colorPalette.length) ""

/-! ## Objects used as dictionaries -/

/-- The own properties of a dictionary object, in creation order. -/
abbrev Obj := List (String × List Record)

/-- Names of the properties every `{}` inherits from `Object.prototype`. -/
def objectPrototypeKeys : List String :=
  ["constructor", "__defineGetter__", "__defineSetter__", "hasOwnProperty",
   "__lookupGetter__", "__lookupSetter__", "isPrototypeOf", "propertyIsEnumerable",
   "toString", "valueOf", "__proto__", "toLocaleString"]

/-- Own-property lookup. -/
def getOwn (acc : Obj) (k : String) : Option (List Record) :=
  match acc with
  | [] => none
  | (k', v) :: rest => if k' = k then some v else getOwn rest k

/-- Assignment to an existing own property: the property keeps its position. -/
def setOwn (acc : Obj) (k : String) (v : List Record) : Obj :=
  match acc with
  | [] => []
  | (k', v') :: rest => if k' = k then (k', v) :: rest else (k', v') :: setOwn rest k v

/-- The body of the `reduce` callback of `groupBy`.

* `acc[group]` is an own property: it is an array, `||` keeps it and `push` appends.
* `acc[group]` is inherited from `Object.prototype`: the inherited value is truthy, `||` keeps
  it, and `acc[group].push` is not a function: a `TypeError` is thrown (`none`).
* otherwise `acc[group]` is `undefined`: a new own property `[]` is created, then `push`. -/
def groupByStep (key : Record → String) (acc : Obj) (item : Record) : Option Obj :=
  let group := key item
  match getOwn acc group with
  | some rows => some (setOwn acc group (rows ++ [item]))
  | none =>
    if group ∈ objectPrototypeKeys then none
    else some (acc ++ [(group, [item])])

/-- The function `groupBy(array, key)`; `none` when the `reduce` throws. -/
def groupBy (array : List Record) (key : Record → String) : Option Obj :=
  array.foldlM (groupByStep key) []

/-- The array index denoted by a property name: a canonical decimal numeral below `2^32 - 1`. -/
def arrayIndex? (s : String) : Option Nat :=
  match s.toNat? with
  | some n => if Nat.repr n = s ∧ n < 4294967295 then some n else none
  | none => none

/-- The function `Object.entries`: array-index keys first in ascending numeric order, then the
other string keys in creation order. -/
def objectEntries (o : Obj) : List (String × List Record) :=
  (o.filter (fun p => (arrayIndex? p.1).isSome)).insertionSort
      (fun p q => (arrayIndex? p.1).getD 0 ≤ (arrayIndex? q.1).getD 0)
    ++ o.filter (fun p => (arrayIndex? p.1).isNone)

/-- The call `rows.sort((a, b) => new Date(a.Date) - new Date(b.Date))`. -/
def sortByDate (dateMs : String → ℤ) (rows : List Record) : List Record :=
  rows.insertionSort (fun a b => dateMs a.Date ≤ dateMs b.Date)

/-! ## Number formatting, square roots and minima -/

/-- The decimal numeral of `n / 100` with exactly two fraction digits. -/
def digits2 (n : Nat) : String :=
  Nat.repr (n / 100) ++ "." ++ Nat.repr (n % 100 / 10) ++ Nat.repr (n % 10)

/-- The method `x.toFixed(2)` on a finite number below `10^21` in magnitude (above that
`toFixed` switches to exponent notation, which is outside this model): a negative `x` prints
`-` followed by the digits of `-x`; the digits are those of the integer `n` with `n / 100`
nearest to the number, the larger `n` on a tie. -/
def toFixed2 (x : ℚ) : String :=
  if x < 0 then "-" ++ digits2 (mathRound (-x * 100)).toNat
  else digits2 (mathRound (x * 100)).toNat

/-- A nonnegative real number given as the square root of a rational: `⟨q⟩` is `√q`. -/
structure Surd where
  radicand : ℚ
deriving DecidableEq

/-- The integer `⌊100 * √q + 1/2⌋`, computed as `⌊(⌊√(40000 * q)⌋ + 1) / 2⌋`. -/
def Surd.hundredths (a : Surd) : Nat :=
  (Nat.sqrt ⌊40000 * a.radicand⌋.toNat + 1) / 2

/-- The method `toFixed(2)` on a square root. -/
def Surd.toFixed2 (a : Surd) : String := digits2 a.hundredths

/-- The call `l.slice(a, b)` for `0 ≤ a` and `0 ≤ b`. -/
def jsSlice {α : Type} (l : List α) (a b : Nat) : List α := (l.take b).drop a

/-! ## Derivation functions -/

/-- The result of `calcHistogram`. -/
structure Histogram where
  labels : List String
  bins : List Nat
deriving DecidableEq

/-- The bucket of one row in `calcHistogram`. -/
def bucketOf (row : Record) : ℤ :=
  let value := numOr row.Return 0
  max 0 (min 10 (mathFloor ((value + 0.05) * 10)))

/-- The function `calcHistogram`. -/
def calcHistogram (data : List Record) : Histogram :=
  let bins := data.foldl (fun bins row =>
    let bucket := (bucketOf row).toNat
    bins.set bucket (bins.getD bucket 0 + 1)) (List.replicate 11 0)
  let labels := bins.mapIdx fun idx _ => toFixed2 ((idx : ℚ) / 10 - 0.05)
  { labels := labels, bins := bins }

/-- The result of `calcRollingCorrelation`. -/
structure Rolling where
  labels : List String
  values : List ℚ
deriving DecidableEq

/-- The body of the `for` loop of `calcRollingCorrelation` at index `i`. The start of the
slice, `i - window + 1`, is computed in the integers; it is not negative when the loop gets
there. -/
def rollingStep (sorted : List Record) (window : Nat) (acc : Rolling) (i : Nat) : Rolling :=
  if i + 1 < window then acc
  else
    match sorted[i]? with
    | none => acc
    | some row =>
      let slice := jsSlice sorted ((i : ℤ) - window + 1).toNat (i + 1)
      let avg := slice.foldl (fun sum row => sum + numOr row.Correlation 0) 0 / (slice.length : ℚ)
      { labels := acc.labels ++ [row.Date]
        values := acc.values ++ [round2 avg] }

/-- The function `calcRollingCorrelation`. -/
def calcRollingCorrelation (dateMs : String → ℤ) (data : List Record) : Rolling :=
  let sorted := sortByDate dateMs data
  let window := 5
  (List.range sorted.length).foldl (rollingStep sorted window) { labels := [], values := [] }

/-- One curve in the result of `calcEquityCurves`, `calcSensitivity` or `calcStressCurves`. -/
structure Series where
  label : String
  data : List ℚ
  labels : List String
  borderColor : String
  tension : ℚ
  fill : Bool
deriving DecidableEq

/-- The `reduce` of `calcEquityCurves`: the unrounded compounded values. At step `idx` the
accumulator has `idx` elements, so `acc[idx - 1]` is its last one. -/
def equityOf (sorted : List Record) : List ℚ :=
  sorted.enum.foldl (fun acc p =>
    let prev := if p.1 = 0 then 100 else acc.getD (p.1 - 1) 0
    acc ++ [prev * (1 + numOr p.2.Return 0)]) []

/-- The function `calcEquityCurves`; `none` when `groupBy` throws. -/
def calcEquityCurves (dateMs : String → ℤ) (data : List Record) : Option (List Series) :=
  (groupBy data Record.Hedge).map fun grouped =>
    (objectEntries grouped).mapIdx fun index entry =>
      let sorted := sortByDate dateMs entry.2
      let labels := sorted.map fun row => row.Date
      let equity := equityOf sorted
      { label := entry.1
        data := equity.map fun v => round2 v
        labels := labels
        borderColor := paletteAt index
        tension := 0.2
        fill := false }

/-- The function `calcSensitivity`; `none` when `groupBy` throws. -/
def calcSensitivity (dateMs : String → ℤ) (data : List Record) : Option (List Series) :=
  (groupBy data Record.Hedge).map fun grouped =>
    (objectEntries grouped).mapIdx fun index entry =>
      let sorted := sortByDate dateMs entry.2
      let labels := sorted.map fun row => row.Date
      let values := sorted.map fun row => numOr row.Equity 100
      { label := entry.1
        data := values
        labels := labels
        borderColor := paletteAt index
        tension := 0.1
        fill := false }

/-- The white space and line terminator characters that `String.prototype.trim` strips. -/
def isJsWhiteSpace (c : Char) : Bool :=
  [0x09, 0x0A, 0x0B, 0x0C, 0x0D, 0x20, 0xA0, 0x1680, 0x2028, 0x2029, 0x202F, 0x205F, 0x3000,
    0xFEFF].contains c.toNat || (0x2000 ≤ c.toNat && c.toNat ≤ 0x200A)

/-- The method `s.trim()`. -/
def jsTrim (s : String) : String :=
  String.mk ((s.toList.dropWhile isJsWhiteSpace).reverse.dropWhile isJsWhiteSpace).reverse

/-- The function `calcStressCurves`; `none` when `groupBy` throws. The template literal is
the concatenation of the label, one space and the suffix. -/
def calcStressCurves (dateMs : String → ℤ) (data : List Record) (labelSuffix : String) :
    Option (List Series) :=
  (groupBy data Record.Hedge).map fun grouped =>
    (objectEntries grouped).mapIdx fun index entry =>
      let sorted := sortByDate dateMs entry.2
      { label := jsTrim (entry.1 ++ " " ++ labelSuffix)
        data := sorted.map fun row => numOr row.Equity 100
        labels := sorted.map fun row => row.Date
        borderColor := paletteAt index
        tension := 0
        fill := false }

/-! ## Specification vocabulary and sample data -/

/-- The distinct elements of a list in order of first occurrence. -/
def firstSeen (ks : List String) : List String :=
  ks.foldl (fun acc k => if k ∈ acc then acc else acc ++ [k]) []

/-- The grouping invariant: keys in first-seen order, each group the filtered input, and the
group lengths summing to the input length. -/
def Grouped (key : Record → String) (l : List Record) (g : Obj) : Prop :=
  g.map Prod.fst = firstSeen (l.map key)
    ∧ (∀ p ∈ g, p.2 = l.filter (fun r => key r = p.1))
    ∧ (g.map fun p => p.2.length).sum = l.length

/-- The `Return` values of the group labelled `k`, in ascending date order, ties in input
order. -/
def returnsOf (dateMs : String → ℤ) (data : List Record) (k : String) : List ℚ :=
  (sortByDate dateMs (data.filter fun r => r.Hedge = k)).map fun r => numOr r.Return 0

/-- The constant `fallbackData`. -/
def fallbackData : List Record :=
  [ ⟨"2023-01-02", "Dynamic", some 0.002, some 1.2, some 0.8, some 100⟩,
    ⟨"2023-01-03", "Static", some (-0.001), some 0.9, some 0.82, some 101⟩,
    ⟨"2023-01-04", "Unhedged", some 0.004, some 1.4, some 0.78, some 103⟩,
    ⟨"2023-02-02", "Dynamic", some 0.005, some 0.8, some 0.76, some 104⟩,
    ⟨"2023-02-03", "Static", some 0.002, some 1.1, some 0.74, some 106⟩,
    ⟨"2023-03-03", "Unhedged", some (-0.003), some 1.3, some 0.7, some 105⟩,
    ⟨"2023-03-04", "Dynamic", some 0.006, some 0.7, some 0.68, some 108⟩,
    ⟨"2023-04-05", "Static", some (-0.002), some 1.05, some 0.69, some 107⟩,
    ⟨"2023-04-06", "Unhedged", some 0.003, some 1.2, some 0.67, some 109⟩ ]

/-- The two `Dynamic` records of the equity-curve scenario. -/
def scenarioDynamic : List Record :=
  [ ⟨"2023-01-02", "Dynamic", some 0.002, none, none, none⟩,
    ⟨"2023-02-02", "Dynamic", some 0.005, none, none, none⟩ ]

/-- Days from 1970-01-01 to the given day of the proleptic Gregorian calendar. -/
def daysFromCivil (y m d : ℤ) : ℤ :=
  let y1 := if m ≤ 2 then y - 1 else y
  let era := y1 / 400
  let yoe := y1 - era * 400
  let doy := (153 * (if m > 2 then m - 3 else m + 9) + 2) / 5 + d - 1
  let doe := yoe * 365 + yoe / 4 - yoe / 100 + doy
  era * 146097 + doe - 719468

/-- A concrete `dateMs`: the time value of `new Date(s)` for a date-only string `YYYY-MM-DD`,
which is read as midnight UTC. Other strings are given `0`. -/
def utcDateMs (s : String) : ℤ :=
  match (s.take 4).toNat?, ((s.drop 5).take 2).toNat?, ((s.drop 8).take 2).toNat? with
  | some y, some m, some d => daysFromCivil y m d * 86400000
  | _, _, _ => 0

theorem getOwn_eq_none_iff (g : Obj) (k : String) :
    getOwn g k = none ↔ k ∉ g.map Prod.fst := by
  induction g with
  | nil => simp [getOwn]
  | cons p rest ih =>
    obtain ⟨k', v⟩ := p
    by_cases hk : k' = k
    · simp [getOwn, hk]
    · simp [getOwn, hk, ih, Ne.symm hk]

theorem mem_of_getOwn_eq_some (g : Obj) (k : String) (v : List Record)
    (h : getOwn g k = some v) : (k, v) ∈ g := by
  induction g with
  | nil => simp [getOwn] at h
  | cons p rest ih =>
    obtain ⟨k', v'⟩ := p
    by_cases hk : k' = k
    · simp [getOwn, hk] at h
      simp [hk, h]
    · simp [getOwn, hk] at h
      simp [ih h]

theorem map_fst_setOwn (g : Obj) (k : String) (v : List Record) :
    (setOwn g k v).map Prod.fst = g.map Prod.fst := by
  induction g with
  | nil => simp [setOwn]
  | cons p rest ih =>
    obtain ⟨k', v'⟩ := p
    by_cases hk : k' = k
    · simp [setOwn, hk]
    · simp [setOwn, hk, ih]

theorem mem_setOwn (g : Obj) (k : String) (v : List Record) (p : String × List Record)
    (hn : (g.map Prod.fst).Nodup) (hp : p ∈ setOwn g k v) :
    p = (k, v) ∨ (p.1 ≠ k ∧ p ∈ g) := by
  induction g with
  | nil => simp [setOwn] at hp
  | cons q rest ih =>
    obtain ⟨k', v'⟩ := q
    simp only [List.map_cons, List.nodup_cons] at hn
    by_cases hk : k' = k
    · simp [setOwn, hk] at hp
      rcases hp with hp | hp
      · exact Or.inl hp
      · right
        refine ⟨?_, by simp [hp]⟩
        intro h
        apply hn.1
        rw [hk, ← h]
        exact List.mem_map_of_mem _ hp
    · simp [setOwn, hk] at hp
      rcases hp with hp | hp
      · right; subst hp; simp [hk]
      · rcases ih hn.2 hp with h | h
        · exact Or.inl h
        · exact Or.inr ⟨h.1, by simp [h.2]⟩

theorem sum_length_setOwn (g : Obj) (k : String) (rows v : List Record)
    (h : getOwn g k = some rows) :
    ((setOwn g k v).map fun p => p.2.length).sum + rows.length
      = (g.map fun p => p.2.length).sum + v.length := by
  induction g with
  | nil => simp [getOwn] at h
  | cons q rest ih =>
    obtain ⟨k', v'⟩ := q
    by_cases hk : k' = k
    · simp [getOwn, hk] at h
      simp [setOwn, hk, h]
      omega
    · simp [getOwn, hk] at h
      have := ih h
      simp [setOwn, hk]
      omega

theorem firstSeen_append_singleton (ks : List String) (k : String) :
    firstSeen (ks ++ [k]) = if k ∈ firstSeen ks then firstSeen ks else firstSeen ks ++ [k] := by
  simp [firstSeen, List.foldl_append]

theorem mem_firstSeen (ks : List String) : ∀ k : String, k ∈ firstSeen ks ↔ k ∈ ks := by
  induction ks using List.reverseRecOn with
  | nil => simp [firstSeen]
  | append_singleton l a ih =>
    intro k
    rw [firstSeen_append_singleton]
    by_cases ha : a ∈ firstSeen l
    · simp only [ha, if_true, List.mem_append, List.mem_singleton, ih]
      constructor
      · exact Or.inl
      · rintro (h | h)
        · exact h
        · rw [h]; exact (ih a).mp ha
    · simp [ha, ih]

theorem nodup_firstSeen (ks : List String) : (firstSeen ks).Nodup := by
  induction ks using List.reverseRecOn with
  | nil => simp [firstSeen]
  | append_singleton l a ih =>
    rw [firstSeen_append_singleton]
    by_cases ha : a ∈ firstSeen l
    · simpa [ha] using ih
    · simp only [ha, if_false]
      exact List.Nodup.append ih (List.nodup_singleton a) (by simpa using ha)

theorem groupBy_append_singleton (l : List Record) (a : Record) (key : Record → String) :
    groupBy (l ++ [a]) key = (groupBy l key).bind fun g => groupByStep key g a := by
  simp [groupBy, List.foldlM_append]

theorem grouped_step (key : Record → String) (l : List Record) (g : Obj) (a : Record)
    (hg : Grouped key l g) (ha : key a ∉ objectPrototypeKeys) :
    ∃ g', groupByStep key g a = some g' ∧ Grouped key (l ++ [a]) g' := by
  obtain ⟨hkeys, hrows, hsum⟩ := hg
  have hnd : (g.map Prod.fst).Nodup := hkeys ▸ nodup_firstSeen _
  cases hget : getOwn g (key a) with
  | some rows =>
    have hmem := mem_of_getOwn_eq_some g _ _ hget
    have hin : key a ∈ firstSeen (l.map key) := by
      rw [← hkeys]; exact List.mem_map_of_mem Prod.fst hmem
    refine ⟨setOwn g (key a) (rows ++ [a]), by simp [groupByStep, hget], ?_, ?_, ?_⟩
    · simp only [map_fst_setOwn, List.map_append, List.map_cons, List.map_nil, hkeys,
        firstSeen_append_singleton, if_pos hin]
    · intro p hp
      rcases mem_setOwn g _ _ p hnd hp with h | ⟨hne, hpg⟩
      · subst h
        have := hrows _ hmem
        simp at this
        simp [List.filter_append, this]
      · have hne' : ¬ key a = p.1 := fun h => hne h.symm
        simp [List.filter_append, hrows p hpg, hne']
    · have := sum_length_setOwn g (key a) rows (rows ++ [a]) hget
      simp at this ⊢
      omega
  | none =>
    have hnin : key a ∉ firstSeen (l.map key) := by
      rw [← hkeys]; exact (getOwn_eq_none_iff g _).mp hget
    refine ⟨g ++ [(key a, [a])], by simp [groupByStep, hget, ha], ?_, ?_, ?_⟩
    · simp only [List.map_append, List.map_cons, List.map_nil, hkeys,
        firstSeen_append_singleton, if_neg hnin]
    · intro p hp
      rcases List.mem_append.mp hp with hpg | hpa
      · have hne : ¬ key a = p.1 := by
          intro h
          apply hnin
          rw [← hkeys, h]
          exact List.mem_map_of_mem Prod.fst hpg
        simp [List.filter_append, hrows p hpg, hne]
      · simp at hpa
        subst hpa
        have hno : l.filter (fun r => key r = key a) = [] := by
          rw [List.filter_eq_nil_iff]
          intro r hr
          simp only [decide_eq_true_eq]
          intro h
          apply hnin
          rw [mem_firstSeen, ← h]
          exact List.mem_map_of_mem key hr
        simp [List.filter_append, hno]
    · simp [hsum]

/-- When no key is the name of an inherited property, `groupBy` returns, its keys are the
distinct key values in first-seen order, and each group is the input filtered to its key. -/
theorem groupBy_grouped (data : List Record) (key : Record → String)
    (h : ∀ r ∈ data, key r ∉ objectPrototypeKeys) :
    ∃ g, groupBy data key = some g ∧ Grouped key data g := by
  induction data using List.reverseRecOn with
  | nil => exact ⟨[], rfl, by simp [Grouped, firstSeen]⟩
  | append_singleton l a ih =>
    obtain ⟨g, hg, hG⟩ := ih (fun r hr => h r (by simp [hr]))
    obtain ⟨g', hstep, hG'⟩ := grouped_step key l g a hG (h a (by simp))
    exact ⟨g', by rw [groupBy_append_singleton, hg]; exact hstep, hG'⟩

theorem perm_objectEntries (o : Obj) : (objectEntries o).Perm o := by
  unfold objectEntries
  refine ((List.perm_insertionSort _ _).append_right _).trans ?_
  have h := List.filter_append_perm (fun p : String × List Record => (arrayIndex? p.1).isSome) o
  refine List.Perm.trans ?_ h
  apply List.Perm.append_left
  apply List.Perm.of_eq
  apply List.filter_congr
  intro p _
  cases arrayIndex? p.1 <;> rfl

theorem mem_objectEntries (o : Obj) (p : String × List Record) :
    p ∈ objectEntries o ↔ p ∈ o :=
  (perm_objectEntries o).mem_iff

theorem length_objectEntries (o : Obj) : (objectEntries o).length = o.length :=
  (perm_objectEntries o).length_eq

theorem perm_sortByDate (dateMs : String → ℤ) (rows : List Record) :
    (sortByDate dateMs rows).Perm rows :=
  List.perm_insertionSort _ rows

theorem length_sortByDate (dateMs : String → ℤ) (rows : List Record) :
    (sortByDate dateMs rows).length = rows.length :=
  (perm_sortByDate dateMs rows).length_eq

theorem equityOf_append_singleton (l : List Record) (a : Record) :
    equityOf (l ++ [a]) = equityOf l ++
      [(if l.length = 0 then 100 else (equityOf l).getD (l.length - 1) 0)
        * (1 + numOr a.Return 0)] := by
  simp [equityOf, List.enum_append, List.foldl_append, List.enumFrom_singleton]

theorem length_equityOf (l : List Record) : (equityOf l).length = l.length := by
  induction l using List.reverseRecOn with
  | nil => rfl
  | append_singleton l a ih => simp [equityOf_append_singleton, ih]

/-- The accumulator of the `reduce` in closed form: the `i`-th unrounded value is `100` times
the product of `1 + r` over the first `i + 1` returns. -/
theorem getElem?_equityOf (l : List Record) (i : Nat) (hi : i < l.length) :
    (equityOf l)[i]? = some (100 * (((l.take (i + 1)).map fun r => 1 + numOr r.Return 0).prod)) := by
  induction l using List.reverseRecOn generalizing i with
  | nil => simp at hi
  | append_singleton l a ih =>
    rw [equityOf_append_singleton]
    by_cases h : i < l.length
    · rw [List.getElem?_append_left (by rw [length_equityOf]; exact h), ih _ h,
        List.take_append_of_le_length (by omega)]
    · have hil : i = l.length := by simp at hi; omega
      subst hil
      rw [List.getElem?_append_right (by rw [length_equityOf])]
      simp only [length_equityOf, Nat.sub_self, List.getElem?_cons_zero]
      rw [List.take_of_length_le (by simp)]
      by_cases h0 : l.length = 0
      · have : l = [] := List.length_eq_zero.mp h0
        subst this
        simp
      · have hlt : l.length - 1 < l.length := by omega
        have := ih _ hlt
        have hsub : l.length - 1 + 1 = l.length := by omega
        rw [hsub, List.take_of_length_le (le_refl _)] at this
        simp [h0, this, mul_assoc]

/-- The entries a derivation function iterates over: when no label names an inherited
property, `groupBy` returns, every entry holds the input filtered to its label, and every
label of the input has an entry. -/
theorem entries_groupBy (data : List Record)
    (h : ∀ r ∈ data, r.Hedge ∉ objectPrototypeKeys) :
    ∃ g, groupBy data Record.Hedge = some g ∧
      (∀ p ∈ objectEntries g, p.2 = data.filter (fun r => r.Hedge = p.1)) ∧
      (∀ k ∈ data.map Record.Hedge, ∃ p ∈ objectEntries g, p.1 = k) := by
  obtain ⟨g, hg, hkeys, hrows, _⟩ := groupBy_grouped data Record.Hedge h
  refine ⟨g, hg, fun p hp => hrows p ((mem_objectEntries g p).mp hp), fun k hk => ?_⟩
  have hk' : k ∈ g.map Prod.fst := by rw [hkeys, mem_firstSeen]; exact hk
  obtain ⟨p, hp, hpk⟩ := List.mem_map.mp hk'
  exact ⟨p, (mem_objectEntries g p).mpr hp, hpk⟩

/-- C3 fails on the code: a record labelled `constructor` makes `groupBy` throw, because
`acc[group]` reads the inherited `Object.prototype.constructor`, which has no `push`. -/
theorem groupBy_throws_on_inherited_key :
    groupBy [⟨"2023-01-02", "constructor", some 0.002, some 1.2, some 0.8, some 100⟩]
      Record.Hedge = none := by
  decide

/-! ## Histogram -/

theorem bucketOf_nonneg (row : Record) : 0 ≤ bucketOf row := by
  simp [bucketOf]

theorem bucketOf_le (row : Record) : bucketOf row ≤ 10 := by
  simp [bucketOf]

theorem toNat_bucketOf_lt (row : Record) : (bucketOf row).toNat < 11 := by
  have h1 := bucketOf_nonneg row
  have h2 := bucketOf_le row
  omega

theorem sum_set_succ (bins : List Nat) (b : Nat) (hb : b < bins.length) :
    (bins.set b (bins.getD b 0 + 1)).sum = bins.sum + 1 := by
  induction bins generalizing b with
  | nil => simp at hb
  | cons x xs ih =>
    cases b with
    | zero => simp; omega
    | succ b =>
      simp only [List.length_cons, Nat.add_lt_add_iff_right] at hb
      have := ih b hb
      simp only [List.getD_eq_getElem?_getD] at this
      simp [this]
      omega

theorem getD_set_succ (bins : List Nat) (b k : Nat) (hb : b < bins.length) :
    (bins.set b (bins.getD b 0 + 1)).getD k 0 = bins.getD k 0 + if b = k then 1 else 0 := by
  simp only [List.getD_eq_getElem?_getD, List.getElem?_set]
  by_cases h : b = k
  · subst h
    simp [hb]
  · simp [h]

/-- The `forEach` of `calcHistogram` from any 11 starting counts. -/
theorem foldl_bins (l : List Record) (bins : List Nat) (hb : bins.length = 11) :
    (l.foldl (fun bins row =>
        bins.set (bucketOf row).toNat (bins.getD (bucketOf row).toNat 0 + 1)) bins).length = 11
    ∧ (l.foldl (fun bins row =>
        bins.set (bucketOf row).toNat (bins.getD (bucketOf row).toNat 0 + 1)) bins).sum
        = bins.sum + l.length
    ∧ ∀ k, (l.foldl (fun bins row =>
        bins.set (bucketOf row).toNat (bins.getD (bucketOf row).toNat 0 + 1)) bins).getD k 0
        = bins.getD k 0 + l.countP (fun row => (bucketOf row).toNat = k) := by
  induction l generalizing bins with
  | nil => simp [hb]
  | cons a l ih =>
    have hlt : (bucketOf a).toNat < bins.length := hb ▸ toNat_bucketOf_lt a
    obtain ⟨h1, h2, h3⟩ := ih (bins.set (bucketOf a).toNat (bins.getD (bucketOf a).toNat 0 + 1))
      (by simp [hb])
    refine ⟨h1, ?_, fun k => ?_⟩
    · rw [List.foldl_cons, h2, sum_set_succ _ _ hlt, List.length_cons]
      omega
    · rw [List.foldl_cons, h3 k, getD_set_succ _ _ _ hlt, List.countP_cons]
      simp only [decide_eq_true_eq]
      omega

/-- C4: for every input, `calcHistogram` returns exactly 11 bin counts and 11 labels, and the
bin counts sum to the input length. -/
theorem calcHistogram_total (data : List Record) :
    (calcHistogram data).bins.length = 11 ∧ (calcHistogram data).labels.length = 11 ∧
    (calcHistogram data).bins.sum = data.length := by
  obtain ⟨h1, h2, -⟩ := foldl_bins data (List.replicate 11 0) (by simp)
  refine ⟨h1, ?_, ?_⟩
  · simp only [calcHistogram, List.length_mapIdx]
    exact h1
  · simp only [calcHistogram]
    rw [h2]
    simp

/-- A `reduce` that adds up one field is the sum of the mapped list. -/
theorem foldl_add_eq_sum {α : Type} (f : α → ℚ) (l : List α) (init : ℚ) :
    l.foldl (fun sum row => sum + f row) init = init + (l.map f).sum := by
  induction l generalizing init with
  | nil => simp
  | cons a l ih => simp [ih, add_assoc]

theorem jsSlice_window (sorted : List Record) (m : Nat) (h4 : 4 ≤ m) (hm : m < sorted.length) :
    jsSlice sorted ((m : ℤ) - 5 + 1).toNat (m + 1) = (sorted.drop (m - 4)).take 5
      ∧ (jsSlice sorted ((m : ℤ) - 5 + 1).toNat (m + 1)).length = 5 := by
  have e : ((m : ℤ) - 5 + 1).toNat = m - 4 := by omega
  have e5 : m + 1 - (m - 4) = 5 := by omega
  constructor
  · rw [jsSlice, e, List.drop_take, e5]
  · rw [jsSlice, e, List.drop_take, e5, List.length_take, List.length_drop]
    exact Nat.min_eq_left (by omega)

/-- The `for` loop of `calcRollingCorrelation` after `m` iterations, in closed form. -/
theorem foldl_rollingStep (sorted : List Record) (m : Nat) (hm : m ≤ sorted.length) :
    (List.range m).foldl (rollingStep sorted 5) { labels := [], values := [] }
      = { labels := ((sorted.take m).drop 4).map fun row => row.Date
          values := (List.range (m - 4)).map fun j =>
            round2 ((((sorted.drop j).take 5).map fun row => numOr row.Correlation 0).sum / 5) } := by
  induction m with
  | zero => simp
  | succ m ih =>
    rw [List.range_succ, List.foldl_append, ih (by omega)]
    simp only [List.foldl_cons, List.foldl_nil]
    by_cases h : m + 1 < 5
    · have e1 : m + 1 - 4 = 0 := by omega
      have e2 : m - 4 = 0 := by omega
      have e3 : (List.take (m + 1) sorted).drop 4 = [] := by
        apply List.drop_eq_nil_of_le; simp; omega
      have e4 : (List.take m sorted).drop 4 = [] := by
        apply List.drop_eq_nil_of_le; simp; omega
      simp [rollingStep, h, e1, e2, e3, e4]
    · have hlt : m < sorted.length := by omega
      have h4 : 4 ≤ m := by omega
      obtain ⟨hs, hl⟩ := jsSlice_window sorted m h4 hlt
      have e1 : m + 1 - 4 = (m - 4) + 1 := by omega
      have e3 : (List.take (m + 1) sorted).drop 4
          = (List.take m sorted).drop 4 ++ [sorted[m]] := by
        rw [List.take_succ, List.getElem?_eq_getElem hlt]
        exact List.drop_append_of_le_length (by simp; omega)
      rw [hs] at hl
      simp only [rollingStep, h, if_false, List.getElem?_eq_getElem hlt, hs, hl,
        foldl_add_eq_sum, zero_add, e1, List.range_succ, e3, List.map_append, List.map_cons,
        List.map_nil, Nat.cast_ofNat]

/-- C5: for every input of length `n`, `calcRollingCorrelation` returns `labels` and `values`
of the same length `max(0, n - 4)`, computed in the integers; the output is empty whenever
`n < 5`. -/
theorem calcRollingCorrelation_length (dateMs : String → ℤ) (data : List Record) :
    ((calcRollingCorrelation dateMs data).labels.length : ℤ) = max 0 ((data.length : ℤ) - 4) ∧
    ((calcRollingCorrelation dateMs data).values.length : ℤ) = max 0 ((data.length : ℤ) - 4) ∧
    (data.length < 5 → calcRollingCorrelation dateMs data = { labels := [], values := [] }) := by
  have h := foldl_rollingStep (sortByDate dateMs data) (sortByDate dateMs data).length (le_refl _)
  rw [List.take_length] at h
  simp only [calcRollingCorrelation]
  rw [h]
  simp only [List.length_map, List.length_drop, List.length_range, length_sortByDate]
  refine ⟨by omega, by omega, fun hn => ?_⟩
  have e : data.length - 4 = 0 := by omega
  have e2 : (sortByDate dateMs data).drop 4 = [] := by
    apply List.drop_eq_nil_of_le; rw [length_sortByDate]; omega
  simp [e, e2]

/-- Witness of C5 on the first four records of `fallbackData`: the output is empty. -/
theorem calcRollingCorrelation_length_witness :
    (fallbackData.take 4).length < 5 ∧
    calcRollingCorrelation utcDateMs (fallbackData.take 4) = { labels := [], values := [] } :=
  ⟨by decide, (calcRollingCorrelation_length utcDateMs (fallbackData.take 4)).2.2 (by decide)⟩

/-- C10 as stated fails: a record whose numeric `Equity` is `0` is emitted as `100`. -/
theorem calcSensitivity_zero_equity_replaced :
    (∀ r ∈ [(⟨"2023-01-02", "Dynamic", some 0.002, some 1.2, some 0.8, some 0⟩ : Record)],
      ∃ q, r.Equity = some q) ∧
    (List.map Record.Equity (sortByDate utcDateMs
      [⟨"2023-01-02", "Dynamic", some 0.002, some 1.2, some 0.8, some 0⟩]) = [some 0]) ∧
    (calcSensitivity utcDateMs
      [⟨"2023-01-02", "Dynamic", some 0.002, some 1.2, some 0.8, some 0⟩]).map
        (List.map Series.data) = some [[100]] := by
  refine ⟨?_, by decide!, by decide!⟩
  intro r hr
  simp only [List.mem_singleton] at hr
  exact ⟨0, by rw [hr]⟩

/-- C10, amended: for every input on which `groupBy` returns, each series of `calcSensitivity`
has as data the `Equity` values of its group's records in ascending date order, not
compounded, where `100` stands in for an `Equity` that is absent or `0`; when every record of
the group carries a nonzero numeric `Equity`, the data are exactly those values. -/
theorem calcSensitivity_projects (dateMs : String → ℤ) (data : List Record)
    (h : ∀ r ∈ data, r.Hedge ∉ objectPrototypeKeys) :
    ∃ curves, calcSensitivity dateMs data = some curves ∧
      (∀ k ∈ data.map Record.Hedge, ∃ c ∈ curves, c.label = k) ∧
      ∀ c ∈ curves,
        c.data = (sortByDate dateMs (data.filter fun r => r.Hedge = c.label)).map (fun r =>
          match r.Equity with
          | none => 100
          | some q => if q = 0 then 100 else q) ∧
        ((∀ r ∈ data, r.Hedge = c.label → ∃ q, q ≠ 0 ∧ r.Equity = some q) →
          c.data.map some
            = (sortByDate dateMs (data.filter fun r => r.Hedge = c.label)).map Record.Equity) := by
  obtain ⟨g, hg, hrows, hall⟩ := entries_groupBy data h
  refine ⟨_, by simp only [calcSensitivity, hg, Option.map_some']; rfl, ?_, ?_⟩
  · intro k hk
    obtain ⟨p, hp, hpk⟩ := hall k hk
    obtain ⟨n, hn, hnp⟩ := List.getElem_of_mem hp
    refine ⟨_, List.mem_mapIdx.mpr ⟨n, hn, rfl⟩, ?_⟩
    simp [hnp, hpk]
  · intro c hc
    obtain ⟨n, hn, rfl⟩ := List.mem_mapIdx.mp hc
    have hp := hrows _ (List.getElem_mem hn)
    simp only [← hp]
    refine ⟨rfl, fun hq => ?_⟩
    rw [List.map_map]
    apply List.map_congr_left
    intro r hr
    have hr' : r ∈ (objectEntries g)[n].2 := (perm_sortByDate dateMs _).mem_iff.mp hr
    rw [hp] at hr'
    obtain ⟨hrd, hrl⟩ := List.mem_filter.mp hr'
    obtain ⟨q, hq0, hqe⟩ := hq r hrd (by simpa using hrl)
    simp [numOr, hqe, hq0]

/-- Witness of the amended C10 on `fallbackData`: the three curves are the raw `Equity`
values. -/
theorem calcSensitivity_projects_witness :
    (∀ r ∈ fallbackData, r.Hedge ∉ objectPrototypeKeys) ∧
    (calcSensitivity utcDateMs fallbackData).map (List.map Series.data)
      = some [[100, 104, 108], [101, 106, 107], [103, 105, 109]] ∧
    ∃ curves, calcSensitivity utcDateMs fallbackData = some curves ∧
      (∀ k ∈ fallbackData.map Record.Hedge, ∃ c ∈ curves, c.label = k) ∧
      ∀ c ∈ curves,
        c.data = (sortByDate utcDateMs (fallbackData.filter fun r => r.Hedge = c.label)).map
          (fun r =>
            match r.Equity with
            | none => 100
            | some q => if q = 0 then 100 else q) ∧
        ((∀ r ∈ fallbackData, r.Hedge = c.label → ∃ q, q ≠ 0 ∧ r.Equity = some q) →
          c.data.map some
            = (sortByDate utcDateMs (fallbackData.filter fun r => r.Hedge = c.label)).map
                Record.Equity) :=
  ⟨by decide, by decide!, calcSensitivity_projects utcDateMs fallbackData (by decide)⟩

/-! ## Square roots -/

theorem jsTrim_of_no_edge_space (cs : List Char) (hne : cs ≠ [])
    (hhead : ∀ c, cs.head? = some c → isJsWhiteSpace c = false)
    (hlast : ∀ c, cs.getLast? = some c → isJsWhiteSpace c = false) :
    jsTrim (String.mk cs) = String.mk cs := by
  unfold jsTrim
  have h1 : cs.dropWhile isJsWhiteSpace = cs := by
    cases cs with
    | nil => rfl
    | cons c rest =>
      have := hhead c rfl
      simp [List.dropWhile_cons, this]
  have h2 : cs.reverse.dropWhile isJsWhiteSpace = cs.reverse := by
    cases hr : cs.reverse with
    | nil => rfl
    | cons c rest =>
      have hl : cs.getLast? = some c := by
        rw [List.getLast?_eq_head?_reverse, hr]; rfl
      have := hlast c hl
      simp [List.dropWhile_cons, this]
  show String.mk ((List.dropWhile isJsWhiteSpace cs).reverse.dropWhile isJsWhiteSpace).reverse
    = String.mk cs
  rw [h1, h2, List.reverse_reverse]

/-- C11 as stated fails: with the empty suffix the label of a stress series is the bare
strategy name, not the name followed by one space and the suffix. -/
theorem calcStressCurves_empty_suffix :
    (calcStressCurves utcDateMs fallbackData "").map (List.map Series.label)
      = some ["Dynamic", "Static", "Unhedged"] ∧
    (calcSensitivity utcDateMs fallbackData).map (List.map fun s => s.label ++ " " ++ "")
      = some ["Dynamic ", "Static ", "Unhedged "] ∧
    (calcStressCurves utcDateMs fallbackData "").map (List.map Series.label)
      ≠ (calcSensitivity utcDateMs fallbackData).map (List.map fun s => s.label ++ " " ++ "") := by
  decide!

/-- The label of a stress series when trimming removes nothing: a name that is not empty and
does not start with white space, and a suffix that is not empty and does not end with it. -/
theorem jsTrim_label (name suffix : String) (hn : name.toList ≠ []) (hs : suffix.toList ≠ [])
    (hhead : ∀ c, name.toList.head? = some c → isJsWhiteSpace c = false)
    (hlast : ∀ c, suffix.toList.getLast? = some c → isJsWhiteSpace c = false) :
    jsTrim (name ++ " " ++ suffix) = name ++ " " ++ suffix := by
  have e : name ++ " " ++ suffix = String.mk (name.toList ++ (' ' :: suffix.toList)) := by
    apply String.ext
    simp [String.toList]
  rw [e]
  apply jsTrim_of_no_edge_space
  · simp
  · intro c hc
    cases hnl : name.toList with
    | nil => exact absurd hnl hn
    | cons x xs =>
      rw [hnl] at hc hhead
      exact hhead c (by simpa using hc)
  · intro c hc
    apply hlast c
    rw [List.getLast?_append, List.getLast?_cons] at hc
    cases hsl : suffix.toList.getLast? with
    | none =>
      exfalso
      exact hs (List.getLast?_eq_none_iff.mp hsl)
    | some d =>
      rw [hsl] at hc
      simpa using hc

/-- C11, amended: `calcStressCurves(data, suffix)` is `calcSensitivity(data)` with, in every
series, the label replaced by the trimmed string made of the strategy name, one space and the
suffix, and the tension set to `0`; so both return the same number of series in the same
order with identical data, date labels and border colours, and both throw on the same inputs.
The label is the name, one space and the suffix when trimming removes nothing. -/
theorem calcStressCurves_eq_sensitivity (dateMs : String → ℤ) (data : List Record)
    (suffix : String) :
    calcStressCurves dateMs data suffix
      = (calcSensitivity dateMs data).map (List.map fun s =>
          { s with label := jsTrim (s.label ++ " " ++ suffix), tension := 0 }) ∧
    (calcStressCurves dateMs data suffix).map (List.map Series.data)
      = (calcSensitivity dateMs data).map (List.map Series.data) ∧
    (calcStressCurves dateMs data suffix).map (List.map Series.labels)
      = (calcSensitivity dateMs data).map (List.map Series.labels) ∧
    (calcStressCurves dateMs data suffix).map (List.map Series.borderColor)
      = (calcSensitivity dateMs data).map (List.map Series.borderColor) ∧
    ((∀ r ∈ data, r.Hedge ∉ objectPrototypeKeys) →
      ∃ curves, calcStressCurves dateMs data suffix = some curves) ∧
    (∀ name : String, name.toList ≠ [] → suffix.toList ≠ [] →
      (∀ c, name.toList.head? = some c → isJsWhiteSpace c = false) →
      (∀ c, suffix.toList.getLast? = some c → isJsWhiteSpace c = false) →
      jsTrim (name ++ " " ++ suffix) = name ++ " " ++ suffix) := by
  have main : calcStressCurves dateMs data suffix
      = (calcSensitivity dateMs data).map (List.map fun s =>
          { s with label := jsTrim (s.label ++ " " ++ suffix), tension := 0 }) := by
    unfold calcStressCurves calcSensitivity
    cases groupBy data Record.Hedge with
    | none => rfl
    | some g =>
      simp only [Option.map_some', Option.some.injEq]
      apply List.ext_getElem?
      intro n
      simp only [List.getElem?_map, List.getElem?_mapIdx]
      cases (objectEntries g)[n]? <;> rfl
  refine ⟨main, ?_, ?_, ?_, ?_, fun name hn hs hh hl => jsTrim_label name suffix hn hs hh hl⟩
  · rw [main, Option.map_map]
    congr 1
    funext l
    simp only [Function.comp, List.map_map]
    rfl
  · rw [main, Option.map_map]
    congr 1
    funext l
    simp only [Function.comp, List.map_map]
    rfl
  · rw [main, Option.map_map]
    congr 1
    funext l
    simp only [Function.comp, List.map_map]
    rfl
  · intro h
    obtain ⟨g, hg, -⟩ := entries_groupBy data h
    exact ⟨_, by simp only [calcStressCurves, hg, Option.map_some']; rfl⟩

/-- Witness of the amended C11 on `fallbackData` with the suffixes `A` and `B`: the labels
are `Dynamic A`, ... and the data are those of `calcSensitivity`. -/
theorem calcStressCurves_eq_sensitivity_witness :
    (calcStressCurves utcDateMs fallbackData "A").map (List.map Series.label)
      = some ["Dynamic A", "Static A", "Unhedged A"] ∧
    (calcStressCurves utcDateMs fallbackData "A").map (List.map Series.data)
      = (calcStressCurves utcDateMs fallbackData "B").map (List.map Series.data) ∧
    (∃ curves, calcStressCurves utcDateMs fallbackData "A" = some curves) ∧
    jsTrim ("Dynamic" ++ " " ++ "A") = "Dynamic" ++ " " ++ "A" :=
  ⟨by decide!,
    ((calcStressCurves_eq_sensitivity utcDateMs fallbackData "A").2.1).trans
      ((calcStressCurves_eq_sensitivity utcDateMs fallbackData "B").2.1).symm,
    (calcStressCurves_eq_sensitivity utcDateMs fallbackData "A").2.2.2.2.1 (by decide),
    (calcStressCurves_eq_sensitivity utcDateMs fallbackData "A").2.2.2.2.2 "Dynamic"
      (by decide) (by decide) (by decide) (by decide)⟩

/-! ## KPI statistics -/

theorem mathRound_mono {a b : ℚ} (h : a ≤ b) : mathRound a ≤ mathRound b := by
  unfold mathRound
  exact Int.floor_mono (by linarith)

theorem round2_mono {a b : ℚ} (h : a ≤ b) : round2 a ≤ round2 b := by
  unfold round2
  have h1 : mathRound (a * 100) ≤ mathRound (b * 100) := mathRound_mono (by linarith)
  have h2 : ((mathRound (a * 100) : ℤ) : ℚ) ≤ ((mathRound (b * 100) : ℤ) : ℚ) := by
    exact_mod_cast h1
  linarith

theorem round2_int (n : ℤ) : round2 (n : ℚ) = n := by
  unfold round2 mathRound
  have : ⌊((n : ℚ) * 100 + 1 / 2)⌋ = n * 100 := by
    rw [Int.floor_eq_iff]
    push_cast
    constructor <;> linarith
  rw [this]
  push_cast
  ring

theorem one_le_prod (fs : List ℚ) (h : ∀ f ∈ fs, 1 ≤ f) : 1 ≤ fs.prod := by
  induction fs with
  | nil => simp
  | cons f fs ih =>
    have h1 := h f (List.mem_cons_self _ _)
    have h2 := ih (fun g hg => h g (List.mem_cons_of_mem _ hg))
    rw [List.prod_cons]
    nlinarith

theorem prod_pos_of_pos (fs : List ℚ) (h : ∀ f ∈ fs, 0 < f) : 0 < fs.prod := by
  induction fs with
  | nil => simp
  | cons f fs ih =>
    rw [List.prod_cons]
    exact mul_pos (h f (List.mem_cons_self _ _)) (ih (fun g hg => h g (List.mem_cons_of_mem _ hg)))

/-- The unrounded values are non-decreasing and at least `100` when no return is negative. -/
theorem equityOf_sorted (l : List Record) (h : ∀ r ∈ l, 0 ≤ numOr r.Return 0) :
    (equityOf l).Sorted (· ≤ ·) ∧ ∀ v ∈ equityOf l, 100 ≤ v := by
  have hval : ∀ i (hi : i < l.length) (hi' : i < (equityOf l).length),
      (equityOf l)[i]
        = 100 * (((l.take (i + 1)).map fun r => 1 + numOr r.Return 0).prod) := by
    intro i hi hi'
    have := getElem?_equityOf l i hi
    rw [List.getElem?_eq_getElem hi'] at this
    exact Option.some.inj this
  have hge : ∀ (m : List Record), (∀ r ∈ m, r ∈ l) →
      1 ≤ (m.map fun r => 1 + numOr r.Return 0).prod := by
    intro m hm
    apply one_le_prod
    intro f hf
    obtain ⟨r, hr, rfl⟩ := List.mem_map.mp hf
    have := h r (hm r hr)
    linarith
  constructor
  · rw [List.Sorted, List.pairwise_iff_getElem]
    intro i j hi hj hij
    have hi' : i < l.length := by rwa [length_equityOf] at hi
    have hj' : j < l.length := by rwa [length_equityOf] at hj
    rw [hval i hi' hi, hval j hj' hj]
    have hsplit : l.take (j + 1) = l.take (i + 1) ++ (l.take (j + 1)).drop (i + 1) := by
      have := (List.take_append_drop (i + 1) (l.take (j + 1))).symm
      rwa [List.take_take, Nat.min_eq_left (by omega)] at this
    rw [hsplit, List.map_append, List.prod_append]
    have h1 := hge (l.take (i + 1)) (fun r hr => List.mem_of_mem_take hr)
    have h2 := hge ((l.take (j + 1)).drop (i + 1))
      (fun r hr => List.mem_of_mem_take (List.mem_of_mem_drop hr))
    nlinarith
  · intro v hv
    obtain ⟨i, hi, rfl⟩ := List.getElem_of_mem hv
    have hi' : i < l.length := by rwa [length_equityOf] at hi
    rw [hval i hi' hi]
    have h1 := hge (l.take (i + 1)) (fun r hr => List.mem_of_mem_take hr)
    linarith

/-- The unrounded values are positive when every return is above `-1`. -/
theorem equityOf_pos (l : List Record) (h : ∀ r ∈ l, -1 < numOr r.Return 0) :
    ∀ v ∈ equityOf l, 0 < v := by
  intro v hv
  obtain ⟨i, hi, rfl⟩ := List.getElem_of_mem hv
  have hi' : i < l.length := by rwa [length_equityOf] at hi
  have := getElem?_equityOf l i hi'
  rw [List.getElem?_eq_getElem hi] at this
  rw [Option.some.inj this]
  have hp : 0 < ((l.take (i + 1)).map fun r => 1 + numOr r.Return 0).prod := by
    apply prod_pos_of_pos
    intro f hf
    obtain ⟨r, hr, rfl⟩ := List.mem_map.mp hf
    have := h r (List.mem_of_mem_take hr)
    linarith
  linarith

/-- C17: for every input on which `groupBy` returns and every strategy group of
`calcEquityCurves`: when all returns of the group are `>= 0` the emitted data array is
non-decreasing and every value is `>= 100`; when all returns are `> -1` every emitted value is
`>= 0`. -/
theorem calcEquityCurves_monotone (dateMs : String → ℤ) (data : List Record)
    (h : ∀ r ∈ data, r.Hedge ∉ objectPrototypeKeys) :
    ∃ curves, calcEquityCurves dateMs data = some curves ∧
      ∀ c ∈ curves,
        ((∀ r ∈ returnsOf dateMs data c.label, 0 ≤ r) →
          c.data.Sorted (· ≤ ·) ∧ ∀ v ∈ c.data, 100 ≤ v) ∧
        ((∀ r ∈ returnsOf dateMs data c.label, -1 < r) → ∀ v ∈ c.data, 0 ≤ v) := by
  obtain ⟨g, hg, hrows, -⟩ := entries_groupBy data h
  refine ⟨_, by simp only [calcEquityCurves, hg, Option.map_some']; rfl, ?_⟩
  intro c hc
  obtain ⟨n, hn, rfl⟩ := List.mem_mapIdx.mp hc
  have hp := hrows _ (List.getElem_mem hn)
  simp only [returnsOf, ← hp]
  have e100 : round2 100 = 100 := by simpa using round2_int 100
  have e0 : round2 0 = 0 := by simpa using round2_int 0
  constructor
  · intro hret
    obtain ⟨hs, hge⟩ := equityOf_sorted (sortByDate dateMs (objectEntries g)[n].2)
      (fun r hr => hret _ (List.mem_map_of_mem _ hr))
    constructor
    · exact List.Pairwise.map round2 (fun a b hab => round2_mono hab) hs
    · intro v hv
      obtain ⟨u, hu, rfl⟩ := List.mem_map.mp hv
      have := round2_mono (hge u hu)
      rwa [e100] at this
  · intro hret v hv
    obtain ⟨u, hu, rfl⟩ := List.mem_map.mp hv
    have hpos := equityOf_pos (sortByDate dateMs (objectEntries g)[n].2)
      (fun r hr => hret _ (List.mem_map_of_mem _ hr)) u hu
    have := round2_mono (le_of_lt hpos)
    rwa [e0] at this

/-- Witness of C17 on the two `Dynamic` records of the scenario, whose returns are
positive: the curve `[100.2, 100.7]` is non-decreasing and stays at or above `100`. -/
theorem calcEquityCurves_monotone_witness :
    (∀ r ∈ scenarioDynamic, r.Hedge ∉ objectPrototypeKeys) ∧
    (∀ r ∈ returnsOf utcDateMs scenarioDynamic "Dynamic", 0 ≤ r) ∧
    ∃ curves, calcEquityCurves utcDateMs scenarioDynamic = some curves ∧
      ∀ c ∈ curves,
        ((∀ r ∈ returnsOf utcDateMs scenarioDynamic c.label, 0 ≤ r) →
          c.data.Sorted (· ≤ ·) ∧ ∀ v ∈ c.data, 100 ≤ v) ∧
        ((∀ r ∈ returnsOf utcDateMs scenarioDynamic c.label, -1 < r) → ∀ v ∈ c.data, 0 ≤ v) :=
  ⟨by decide, by decide!, calcEquityCurves_monotone utcDateMs scenarioDynamic (by decide)⟩

/-! ## Zero volatility -/

end Portfolio
